import Mathlib

/-!
Shallow embedding of `src/hailstone.py` (vilya/Hailstones).

The source is Python 2 (`xrange`, `print` statements), where `/` and `%` on
integers are floor division and floor modulus; we embed them as `Int.fdiv`
and `Int.fmod`.  Fallible operations (the Python list subscript, which raises
`IndexError` when the index is out of range) are embedded in `Option`.
-/

/-- Function `hailstone(n)` from `src/hailstone.py` lines 1-6:
`n / 2` when `n % 2 == 0`, else `3 * n + 1` (Python 2 floor `/`, `%`). -/
def hailstone (n : Int) : Int :=
  if n.fmod 2 = 0 then n.fdiv 2 else 3 * n + 1

/-- The `while` loop of `hailstone_len` (lines 12-14): while
`val != 1 and count <= maxlength`, set `val = hailstone(val)` and
`count += 1`; the loop variable `count` is returned when the loop exits. -/
def hailstone_len_loop (maxlength val count : Int) : Int :=
  if val ≠ 1 ∧ count ≤ maxlength then
    hailstone_len_loop maxlength (hailstone val) (count + 1)
  else
    count
termination_by (maxlength + 1 - count).toNat
decreasing_by omega

/-- Function `hailstone_len(start, maxlength)` from lines 9-15: `val = start`,
`count = 1`, run the loop, return `count`. -/
def hailstone_len (start maxlength : Int) : Int :=
  hailstone_len_loop maxlength start 1

/-- Fuel-indexed form of the `while` loop.  When called with fuel
`(maxlength + 1 - count).toNat` it computes exactly the same iterations as
`hailstone_len_loop`: fuel `0` means `count > maxlength` (loop guard false),
and positive fuel means `count ≤ maxlength`, so only `val = 1` can stop the
loop.  Being structurally recursive, it lets the kernel evaluate concrete
runs. -/
def loopFuel : Nat → Int → Int → Int
  | 0, _, count => count
  | fuel + 1, val, count =>
      if val = 1 then count else loopFuel fuel (hailstone val) (count + 1)

/-- Fuel-indexed loop that counts how many times the loop body executes
(the number of hailstone steps taken). -/
def loopFuelSteps : Nat → Int → Int → Nat
  | 0, _, _ => 0
  | fuel + 1, val, count =>
      if val = 1 then 0 else loopFuelSteps fuel (hailstone val) (count + 1) + 1

/-- Number of hailstone steps taken by `hailstone_len start maxlength`. -/
def hailstone_steps (start maxlength : Int) : Nat :=
  loopFuelSteps maxlength.toNat start 1

/-- The `while` loop with explicit fuel and an `Option` result: `none` means
the fuel ran out before the loop guard `val != 1 and count <= maxlength`
became false.  `∃ fuel` with a `some` result is exactly termination of the
source loop. -/
def loopOpt : Nat → Int → Int → Int → Option Int
  | 0, _, _, _ => none
  | fuel + 1, maxlength, val, count =>
      if val ≠ 1 ∧ count ≤ maxlength then
        loopOpt fuel maxlength (hailstone val) (count + 1)
      else
        some count

/-- Variable `num_buckets` from lines 21-23: `maxlength / bucketsize` (Python 2 floor
division), plus one when `maxlength % bucketsize != 0`. -/
def numBuckets (maxlength bucketsize : Int) : Int :=
  maxlength.fdiv bucketsize +
    (if maxlength.fmod bucketsize ≠ 0 then 1 else 0)

/-- Python list element increment `xs[i] += 1` (line 32).  A Python subscript
accepts `-len xs ≤ i < len xs` (negative indices count from the end) and
raises `IndexError` otherwise; the error is `none`. -/
def pyIncr (xs : List Int) (i : Int) : Option (List Int) :=
  if 0 ≤ i ∧ i < xs.length then
    some (xs.set i.toNat (xs.getD i.toNat 0 + 1))
  else if -(xs.length : Int) ≤ i ∧ i < 0 then
    some (xs.set (xs.length + i).toNat (xs.getD (xs.length + i).toNat 0 + 1))
  else
    none

/-- One iteration of the counting pass (lines 28-32) on the state
`(buckets, overflow)`: compute `l = hailstone_len(start, maxlength)`; if
`l > maxlength` increment `overflow`, else increment
`buckets[(l - 1) / bucketsize]` (Python 2 floor division). -/
def tallyOne (maxlength bucketsize : Int) (st : List Int × Int)
    (start : Int) : Option (List Int × Int) :=
  let l := hailstone_len start maxlength
  if l > maxlength then
    some (st.1, st.2 + 1)
  else
    (pyIncr st.1 ((l - 1).fdiv bucketsize)).map fun bs => (bs, st.2)

/-- The iteration range `xrange(lower, upper + 1)` (line 27) as a list of `Int`. -/
def rangeList (lower upper : Int) : List Int :=
  (List.range (upper + 1 - lower).toNat).map fun i : Nat => lower + (i : Int)

/-- The counting pass, lines 25-32: `buckets = [0] * num_buckets`,
`overflow = 0`, then fold `tallyOne` over `xrange(lower, upper + 1)`. -/
def countPass (lower upper maxlength bucketsize : Int) :
    Option (List Int × Int) :=
  (rangeList lower upper).foldlM (tallyOne maxlength bucketsize)
    (List.replicate (numBuckets maxlength bucketsize).toNat 0, 0)

/-- The bucket ranges printed by the report (lines 35-38): for bucket `i`,
`low = i * bucketsize + 1` and `high = min((i + 1) * bucketsize, maxlength)`. -/
def bucketBounds (maxlength bucketsize : Int) : List (Int × Int) :=
  (List.range (numBuckets maxlength bucketsize).toNat).map fun i =>
    ((i : Int) * bucketsize + 1, min (((i : Int) + 1) * bucketsize) maxlength)

example : hailstone 6 = 3 := by decide
example : hailstone 7 = 22 := by decide
example : loopFuel 100 6 1 = 9 := by decide
example : numBuckets 20 7 = 3 := by decide

/-! ### Loop lemmas -/

/-- With exactly `(maxlength + 1 - count).toNat` fuel, the fuel-indexed loop
computes the `while` loop: zero fuel means the guard `count ≤ maxlength` is
false, positive fuel means it holds, so only `val = 1` stops the loop. -/
theorem hailstone_len_loop_eq_loopFuel :
    ∀ (fuel : Nat) (maxlength val count : Int),
      fuel = (maxlength + 1 - count).toNat →
      hailstone_len_loop maxlength val count = loopFuel fuel val count := by
  intro fuel
  induction fuel with
  | zero =>
    intro maxlength val count h
    rw [hailstone_len_loop, loopFuel]
    have : ¬ count ≤ maxlength := by omega
    simp [this]
  | succ k ih =>
    intro maxlength val count h
    have hc : count ≤ maxlength := by omega
    rw [hailstone_len_loop, loopFuel]
    by_cases hv : val = 1
    · simp [hv]
    · simp only [hv, if_false, ne_eq, not_false_eq_true, true_and, if_pos hc]
      exact ih maxlength (hailstone val) (count + 1) (by omega)

theorem hailstone_len_eq_loopFuel (start maxlength : Int) :
    hailstone_len start maxlength = loopFuel maxlength.toNat start 1 := by
  apply hailstone_len_loop_eq_loopFuel
  omega

/-- The loop's result is its entry `count` plus the number of body
executions. -/
theorem loopFuel_eq_add_steps :
    ∀ (fuel : Nat) (val count : Int),
      loopFuel fuel val count = count + loopFuelSteps fuel val count := by
  intro fuel
  induction fuel with
  | zero => intro val count; simp [loopFuel, loopFuelSteps]
  | succ k ih =>
    intro val count
    rw [loopFuel, loopFuelSteps]
    by_cases hv : val = 1
    · simp [hv]
    · simp only [hv, if_false]
      rw [ih]
      push_cast
      ring

theorem loopFuelSteps_le (fuel : Nat) :
    ∀ (val count : Int), loopFuelSteps fuel val count ≤ fuel := by
  induction fuel with
  | zero => intro val count; simp [loopFuelSteps]
  | succ k ih =>
    intro val count
    rw [loopFuelSteps]
    by_cases hv : val = 1
    · simp [hv]
    · simp only [hv, if_false]
      exact Nat.succ_le_succ (ih _ _)

/-- All values seen strictly before the loop stops differ from 1. -/
theorem loopFuelSteps_iterate_ne (fuel : Nat) :
    ∀ (val count : Int) (k : Nat), k < loopFuelSteps fuel val count →
      hailstone^[k] val ≠ 1 := by
  induction fuel with
  | zero => intro val count k hk; simp [loopFuelSteps] at hk
  | succ n ih =>
    intro val count k hk
    rw [loopFuelSteps] at hk
    by_cases hv : val = 1
    · simp [hv] at hk
    · simp only [hv, if_false] at hk
      match k with
      | 0 => simpa using hv
      | k + 1 =>
        rw [Function.iterate_succ_apply]
        exact ih (hailstone val) (count + 1) k (by omega)

/-- If the loop stops before exhausting its fuel, it stopped on `val = 1`. -/
theorem loopFuelSteps_iterate_eq (fuel : Nat) :
    ∀ (val count : Int), loopFuelSteps fuel val count < fuel →
      hailstone^[loopFuelSteps fuel val count] val = 1 := by
  induction fuel with
  | zero => intro val count h; omega
  | succ n ih =>
    intro val count h
    rw [loopFuelSteps] at h ⊢
    by_cases hv : val = 1
    · simp [hv]
    · simp only [hv, if_false] at h ⊢
      rw [Function.iterate_succ_apply]
      exact ih (hailstone val) (count + 1) (by omega)

/-- Once `count` exceeds `maxlength` the loop body does not run: the loop
returns `count` unchanged. -/
theorem hailstone_len_loop_exit (maxlength val count : Int)
    (h : maxlength < count) : hailstone_len_loop maxlength val count = count := by
  rw [hailstone_len_loop]
  have : ¬ count ≤ maxlength := by omega
  simp [this]

/-- The loop never decreases `count`. -/
theorem le_hailstone_len_loop (maxlength : Int) :
    ∀ (fuel : Nat) (val count : Int), fuel = (maxlength + 1 - count).toNat →
      count ≤ hailstone_len_loop maxlength val count := by
  intro fuel
  induction fuel with
  | zero =>
    intro val count h
    rw [hailstone_len_loop_eq_loopFuel 0 maxlength val count h, loopFuel]
  | succ k ih =>
    intro val count h
    rw [hailstone_len_loop]
    by_cases hv : val = 1
    · simp [hv]
    · by_cases hc : count ≤ maxlength
      · simp only [ne_eq, hv, not_false_eq_true, true_and, if_pos hc]
        have := ih (hailstone val) (count + 1) (by omega)
        omega
      · simp [hc]

theorem one_le_hailstone_len (start maxlength : Int) :
    1 ≤ hailstone_len start maxlength :=
  le_hailstone_len_loop maxlength (maxlength + 1 - 1).toNat start 1 rfl

/-! ### Claim C1: the hailstone step -/

/-- C1: for every even integer `n`, `hailstone n` is `n / 2` by exact
integer (floor) division — in particular `2 * hailstone n = n`, so the
halving is never fractional — and for every odd `n`, `hailstone n` is
`3 * n + 1`. -/
theorem hailstone_even_odd (n : Int) :
    (Even n → hailstone n = n / 2 ∧ 2 * hailstone n = n) ∧
    (Odd n → hailstone n = 3 * n + 1) := by
  constructor
  · intro he
    have h2 : n % 2 = 0 := Int.even_iff.mp he
    have hf : n.fmod 2 = 0 := by
      rw [Int.fmod_eq_emod n (by norm_num)]; exact h2
    have hd : hailstone n = n / 2 := by
      rw [hailstone, if_pos hf, Int.fdiv_eq_ediv n (by norm_num)]
    refine ⟨hd, ?_⟩
    rw [hd]
    omega
  · intro ho
    have h2 : n % 2 = 1 := Int.odd_iff.mp ho
    have hf : ¬ n.fmod 2 = 0 := by
      rw [Int.fmod_eq_emod n (by norm_num)]; omega
    rw [hailstone, if_neg hf]

/-- Witness for C1 at `n = 4` (even) and `n = 3` (odd). -/
theorem hailstone_even_odd_witness :
    (hailstone 4 = 2 ∧ 2 * hailstone 4 = 4) ∧ hailstone 3 = 10 :=
  ⟨(hailstone_even_odd 4).1 ⟨2, by norm_num⟩, (hailstone_even_odd 3).2 ⟨1, by norm_num⟩⟩

/-! ### Claim C10: positivity is preserved -/

/-- One hailstone step keeps a positive integer positive. -/
theorem hailstone_pos {n : Int} (h : 1 ≤ n) : 1 ≤ hailstone n := by
  rw [hailstone, Int.fmod_eq_emod n (by norm_num), Int.fdiv_eq_ediv n (by norm_num)]
  by_cases h2 : n % 2 = 0 <;> simp [h2] <;> omega

/-- C10: starting from any `start ≥ 1`, every value of the hailstone
sequence stays `≥ 1`; the unspecified `n ≤ 0` behavior of `hailstone` is
never reached from a positive start. -/
theorem hailstone_iterate_pos (start : Int) (h : 1 ≤ start) :
    ∀ k : Nat, 1 ≤ hailstone^[k] start := by
  intro k
  induction k with
  | zero => simpa using h
  | succ n ih =>
    rw [Function.iterate_succ_apply']
    exact hailstone_pos ih

/-- Witness for C10 at `start = 7`, `k = 3`. -/
theorem hailstone_iterate_pos_witness :
    1 ≤ (7 : Int) ∧ 1 ≤ hailstone^[3] (7 : Int) :=
  ⟨by norm_num, hailstone_iterate_pos 7 (by norm_num) 3⟩

/-! ### Claim C8: termination of hailstone_len -/

/-- With more than `(maxlength + 1 - count).toNat` units of fuel, the
explicitly-fuelled loop halts and returns what the `while` loop returns. -/
theorem loopOpt_some :
    ∀ (fuel : Nat) (maxlength val count : Int),
      (maxlength + 1 - count).toNat < fuel →
      loopOpt fuel maxlength val count =
        some (hailstone_len_loop maxlength val count) := by
  intro fuel
  induction fuel with
  | zero => intro maxlength val count h; omega
  | succ k ih =>
    intro maxlength val count h
    rw [loopOpt, hailstone_len_loop]
    by_cases hg : val ≠ 1 ∧ count ≤ maxlength
    · rw [if_pos hg, if_pos hg]
      exact ih maxlength (hailstone val) (count + 1) (by omega)
    · rw [if_neg hg, if_neg hg]

/-- C8: `hailstone_len` terminates for every integer `start` and
`maxlength`: the `while` loop, run step by step with fuel, reaches its exit
condition within finitely many iterations (because `count` strictly
increases towards the `count ≤ maxlength` bound unless `val` reaches 1),
and yields `hailstone_len start maxlength`. -/
theorem hailstone_len_terminates (start maxlength : Int) :
    ∃ fuel : Nat, loopOpt fuel maxlength start 1 =
      some (hailstone_len start maxlength) :=
  ⟨maxlength.toNat + 1, loopOpt_some (maxlength.toNat + 1) maxlength start 1 (by omega)⟩

/-! ### Claim C2: the length contract -/

/-- C2: for positive `start` and `maxlength`, `hailstone_len` returns
1 + the number of loop-body executions (`count` starts at 1 before any
step); the result is at most `maxlength + 1`; the loop body never runs once
`count` exceeds `maxlength` (the loop returns `count` unchanged); and the
result exceeds `maxlength` exactly when the sequence did not reach 1 within
the cap (no iterate among the first `maxlength` sequence values is 1). -/
theorem hailstone_len_contract (start maxlength : Int)
    (_hs : 0 < start) (hm : 0 < maxlength) :
    hailstone_len start maxlength = 1 + (hailstone_steps start maxlength : Int) ∧
    hailstone_len start maxlength ≤ maxlength + 1 ∧
    (∀ val count : Int, maxlength < count →
      hailstone_len_loop maxlength val count = count) ∧
    (maxlength < hailstone_len start maxlength ↔
      ∀ k : Nat, (k : Int) < maxlength → hailstone^[k] start ≠ 1) := by
  have hlen : hailstone_len start maxlength =
      1 + (loopFuelSteps maxlength.toNat start 1 : Int) := by
    rw [hailstone_len_eq_loopFuel, loopFuel_eq_add_steps]
  have hle : loopFuelSteps maxlength.toNat start 1 ≤ maxlength.toNat :=
    loopFuelSteps_le maxlength.toNat start 1
  refine ⟨hlen, by omega, fun val count h => hailstone_len_loop_exit maxlength val count h, ?_⟩
  constructor
  · intro hover k hk
    apply loopFuelSteps_iterate_ne maxlength.toNat start 1
    omega
  · intro hall
    by_contra hle2
    have hlt : loopFuelSteps maxlength.toNat start 1 < maxlength.toNat := by omega
    have h1 := loopFuelSteps_iterate_eq maxlength.toNat start 1 hlt
    exact hall (loopFuelSteps maxlength.toNat start 1) (by omega) h1

/-- Witness for C2 at `start = 6`, `maxlength = 100`. -/
theorem hailstone_len_contract_witness :
    0 < (6 : Int) ∧ 0 < (100 : Int) ∧
    (hailstone_len 6 100 = 1 + (hailstone_steps 6 100 : Int) ∧
     hailstone_len 6 100 ≤ 100 + 1 ∧
     (∀ val count : Int, 100 < count →
       hailstone_len_loop 100 val count = count) ∧
     (100 < hailstone_len 6 100 ↔
       ∀ k : Nat, (k : Int) < 100 → hailstone^[k] (6 : Int) ≠ 1)) :=
  ⟨by norm_num, by norm_num, hailstone_len_contract 6 100 (by norm_num) (by norm_num)⟩

/-! ### Claim C7: known values -/

set_option maxRecDepth 40000 in
/-- C7: `hailstone_len 1 maxlength = 1` for every `maxlength ≥ 1`;
`hailstone_len 6 100 = 9` (eight steps after the start); and
`hailstone_len 27 1000 = 112`. -/
theorem hailstone_len_known_values :
    (∀ maxlength : Int, 1 ≤ maxlength → hailstone_len 1 maxlength = 1) ∧
    hailstone_len 6 100 = 9 ∧ hailstone_len 27 1000 = 112 := by
  refine ⟨?_, ?_, ?_⟩
  · intro m hm
    rw [hailstone_len, hailstone_len_loop]
    simp
  · rw [hailstone_len_eq_loopFuel]
    decide
  · rw [hailstone_len_eq_loopFuel]
    decide

/-- Witness for C7's hypothesis-bearing part at `maxlength = 5`. -/
theorem hailstone_len_known_values_witness :
    1 ≤ (5 : Int) ∧ hailstone_len 1 5 = 1 :=
  ⟨by norm_num, hailstone_len_known_values.1 5 (by norm_num)⟩

/-! ### Bucket-count lemmas -/

/-- For a positive bucket size, the Python floor operators in `numBuckets`
coincide with Euclidean division. -/
theorem numBuckets_eq_ediv (m b : Int) (hb : 0 < b) :
    numBuckets m b = m / b + (if m % b ≠ 0 then 1 else 0) := by
  rw [numBuckets, Int.fdiv_eq_ediv m (le_of_lt hb), Int.fmod_eq_emod m (le_of_lt hb)]

/-- The value `numBuckets m b` satisfies the defining inequalities of the ceiling of `m / b`. -/
theorem numBuckets_sandwich (m b : Int) (hb : 0 < b) :
    b * (numBuckets m b - 1) < m ∧ m ≤ b * numBuckets m b := by
  rw [numBuckets_eq_ediv m b hb]
  have hqr : b * (m / b) + m % b = m := Int.ediv_add_emod m b
  have hr0 : 0 ≤ m % b := Int.emod_nonneg m (ne_of_gt hb)
  have hrb : m % b < b := Int.emod_lt_of_pos m hb
  by_cases hr : m % b = 0
  · simp only [hr, ne_eq, not_true_eq_false, if_false, add_zero]
    have e : b * (m / b - 1) = b * (m / b) - b := by ring
    constructor
    · linarith [hqr]
    · linarith [hqr]
  · simp only [ne_eq, hr, not_false_eq_true, if_true]
    have hr1 : 0 < m % b := lt_of_le_of_ne hr0 (Ne.symm hr)
    have e1 : b * (m / b + 1 - 1) = b * (m / b) := by ring
    have e2 : b * (m / b + 1) = b * (m / b) + b := by ring
    constructor
    · linarith [hqr]
    · linarith [hqr]

/-- The closed form `(m + b - 1) / b` satisfies the same inequalities. -/
theorem ceil_ediv_sandwich (m b : Int) (hb : 0 < b) :
    b * ((m + b - 1) / b - 1) < m ∧ m ≤ b * ((m + b - 1) / b) := by
  have hqr : b * ((m + b - 1) / b) + (m + b - 1) % b = m + b - 1 :=
    Int.ediv_add_emod (m + b - 1) b
  have hr0 : 0 ≤ (m + b - 1) % b := Int.emod_nonneg (m + b - 1) (ne_of_gt hb)
  have hrb : (m + b - 1) % b < b := Int.emod_lt_of_pos (m + b - 1) hb
  have e : b * ((m + b - 1) / b - 1) = b * ((m + b - 1) / b) - b := by ring
  constructor
  · linarith [hqr]
  · linarith [hqr]

/-- The inequalities `b * (x - 1) < m ≤ b * x` determine `x` uniquely. -/
theorem sandwich_unique {m b x y : Int} (hb : 0 < b)
    (hx : b * (x - 1) < m ∧ m ≤ b * x) (hy : b * (y - 1) < m ∧ m ≤ b * y) :
    x = y := by
  rcases hx with ⟨hx1, hx2⟩
  rcases hy with ⟨hy1, hy2⟩
  by_contra hne
  rcases lt_or_gt_of_ne hne with hlt | hgt
  · have h : b * x ≤ b * (y - 1) :=
      mul_le_mul_of_nonneg_left (by omega) (le_of_lt hb)
    linarith
  · have h : b * y ≤ b * (x - 1) :=
      mul_le_mul_of_nonneg_left (by omega) (le_of_lt hb)
    linarith

/-! ### Claim C5: bucket count is the ceiling -/

/-- C5: for positive `maxlength` and `bucketsize`, the number of buckets is
`⌈maxlength / bucketsize⌉` — stated both as the closed form
`(maxlength + bucketsize - 1) / bucketsize` and by the ceiling's defining
inequalities — and concretely, with `maxlength = 20`, `bucketsize = 7`,
there are exactly 3 buckets covering 1-7, 8-14 and 15-20 (the last clipped
to `maxlength`). -/
theorem numBuckets_is_ceil (maxlength bucketsize : Int)
    (_hm : 0 < maxlength) (hb : 0 < bucketsize) :
    numBuckets maxlength bucketsize = (maxlength + bucketsize - 1) / bucketsize ∧
    bucketsize * (numBuckets maxlength bucketsize - 1) < maxlength ∧
    maxlength ≤ bucketsize * numBuckets maxlength bucketsize ∧
    numBuckets 20 7 = 3 ∧
    bucketBounds 20 7 = [(1, 7), (8, 14), (15, 20)] := by
  have h1 := numBuckets_sandwich maxlength bucketsize hb
  have h2 := ceil_ediv_sandwich maxlength bucketsize hb
  refine ⟨sandwich_unique hb h1 h2, h1.1, h1.2, by decide, by decide⟩

/-- Witness for C5 at `maxlength = 20`, `bucketsize = 7`. -/
theorem numBuckets_is_ceil_witness :
    0 < (20 : Int) ∧ 0 < (7 : Int) ∧
    (numBuckets 20 7 = (20 + 7 - 1) / 7 ∧
     (7 : Int) * (numBuckets 20 7 - 1) < 20 ∧
     (20 : Int) ≤ 7 * numBuckets 20 7 ∧
     numBuckets 20 7 = 3 ∧
     bucketBounds 20 7 = [(1, 7), (8, 14), (15, 20)]) :=
  ⟨by norm_num, by norm_num, numBuckets_is_ceil 20 7 (by norm_num) (by norm_num)⟩

/-! ### Claim C6: bucket indices are in bounds -/

/-- The bucket index `(l - 1) / bucketsize` of any length
`1 ≤ l ≤ maxlength` is nonnegative and below `numBuckets`. -/
theorem bucketIdx_bounds (m b l : Int) (hb : 0 < b) (h1 : 1 ≤ l) (h2 : l ≤ m) :
    0 ≤ (l - 1).fdiv b ∧ (l - 1).fdiv b < numBuckets m b := by
  rw [Int.fdiv_eq_ediv (l - 1) (le_of_lt hb)]
  refine ⟨Int.ediv_nonneg (by omega) (le_of_lt hb), ?_⟩
  rw [Int.ediv_lt_iff_lt_mul hb]
  have hs := (numBuckets_sandwich m b hb).2
  have hc : b * numBuckets m b = numBuckets m b * b := mul_comm b (numBuckets m b)
  linarith

/-- C6: the counting pass has no error path: for positive `maxlength` and
`bucketsize` and any length `1 ≤ length ≤ maxlength`, the bucket index
`(length - 1) / bucketsize` lies in `0 .. numBuckets - 1`, so the Python
subscript `buckets[...] += 1` on a bucket list of the allocated size always
succeeds (never raises `IndexError`). -/
theorem bucket_index_in_bounds (maxlength bucketsize length : Int)
    (_hm : 0 < maxlength) (hb : 0 < bucketsize)
    (h1 : 1 ≤ length) (h2 : length ≤ maxlength) :
    0 ≤ (length - 1).fdiv bucketsize ∧
    (length - 1).fdiv bucketsize < numBuckets maxlength bucketsize ∧
    ∀ xs : List Int, xs.length = (numBuckets maxlength bucketsize).toNat →
      (pyIncr xs ((length - 1).fdiv bucketsize)).isSome := by
  have hi := bucketIdx_bounds maxlength bucketsize length hb h1 h2
  refine ⟨hi.1, hi.2, ?_⟩
  intro xs hxs
  have hN : ((numBuckets maxlength bucketsize).toNat : Int) =
      numBuckets maxlength bucketsize := Int.toNat_of_nonneg (by omega)
  have hc : 0 ≤ (length - 1).fdiv bucketsize ∧
      (length - 1).fdiv bucketsize < (xs.length : Int) := by
    rw [hxs, hN]
    exact hi
  rw [pyIncr, if_pos hc]
  simp

/-- Witness for C6 at `maxlength = 20`, `bucketsize = 7`, `length = 20`. -/
theorem bucket_index_in_bounds_witness :
    0 < (20 : Int) ∧ 0 < (7 : Int) ∧ 1 ≤ (20 : Int) ∧ (20 : Int) ≤ 20 ∧
    (0 ≤ ((20 : Int) - 1).fdiv 7 ∧
     ((20 : Int) - 1).fdiv 7 < numBuckets 20 7 ∧
     ∀ xs : List Int, xs.length = (numBuckets 20 7).toNat →
       (pyIncr xs (((20 : Int) - 1).fdiv 7)).isSome) :=
  ⟨by norm_num, by norm_num, by norm_num, by norm_num,
    bucket_index_in_bounds 20 7 20 (by norm_num) (by norm_num) (by norm_num) (by norm_num)⟩

/-! ### Claim C4: effect of one counting-pass iteration -/

/-- A Python subscript with an index in `[0, len)` succeeds and updates in
place. -/
theorem pyIncr_some {xs : List Int} {i : Int} (h0 : 0 ≤ i)
    (h1 : i < (xs.length : Int)) :
    pyIncr xs i = some (xs.set i.toNat (xs.getD i.toNat 0 + 1)) := by
  rw [pyIncr, if_pos ⟨h0, h1⟩]

/-- C4: for each `start`, the counting pass computes
`l = hailstone_len(start, maxlength)` and then increments exactly one
counter: the overflow counter when `l > maxlength`, otherwise the bucket at
index `(l - 1) div bucketsize` (floor division); every other bucket keeps
its value. -/
theorem tally_step_effect (maxlength bucketsize start : Int)
    (st : List Int × Int) (_hm : 0 < maxlength) (hb : 0 < bucketsize)
    (hlen : st.1.length = (numBuckets maxlength bucketsize).toNat) :
    (maxlength < hailstone_len start maxlength →
      tallyOne maxlength bucketsize st start = some (st.1, st.2 + 1)) ∧
    (hailstone_len start maxlength ≤ maxlength →
      tallyOne maxlength bucketsize st start =
        some (st.1.set ((hailstone_len start maxlength - 1).fdiv bucketsize).toNat
          (st.1.getD ((hailstone_len start maxlength - 1).fdiv bucketsize).toNat 0 + 1),
          st.2)) ∧
    (∀ st', tallyOne maxlength bucketsize st start = some st' →
      ∀ j : Nat,
        j ≠ ((hailstone_len start maxlength - 1).fdiv bucketsize).toNat →
        st'.1.getD j 0 = st.1.getD j 0) := by
  have hone : 1 ≤ hailstone_len start maxlength :=
    one_le_hailstone_len start maxlength
  refine ⟨?_, ?_, ?_⟩
  · intro h
    simp only [tallyOne]
    rw [if_pos h]
  · intro h
    have hi := bucketIdx_bounds maxlength bucketsize
      (hailstone_len start maxlength) hb hone h
    have hN : ((numBuckets maxlength bucketsize).toNat : Int) =
        numBuckets maxlength bucketsize := Int.toNat_of_nonneg (by omega)
    simp only [tallyOne]
    rw [if_neg (by omega), pyIncr_some hi.1 (by rw [hlen, hN]; exact hi.2)]
    rfl
  · intro st' hst j hj
    simp only [tallyOne] at hst
    by_cases h : maxlength < hailstone_len start maxlength
    · rw [if_pos h] at hst
      cases hst
      rfl
    · have hle : hailstone_len start maxlength ≤ maxlength := by omega
      have hi := bucketIdx_bounds maxlength bucketsize
        (hailstone_len start maxlength) hb hone hle
      have hN : ((numBuckets maxlength bucketsize).toNat : Int) =
          numBuckets maxlength bucketsize := Int.toNat_of_nonneg (by omega)
      rw [if_neg (by omega),
        pyIncr_some hi.1 (by rw [hlen, hN]; exact hi.2)] at hst
      simp only [Option.map_some'] at hst
      cases hst
      simp only [List.getD_eq_getElem?_getD]
      rw [List.getElem?_set_ne (Ne.symm hj)]

/-- Witness for C4 at `maxlength = 20`, `bucketsize = 7`, `start = 6`, on a
three-bucket state. -/
theorem tally_step_effect_witness :
    0 < (20 : Int) ∧ 0 < (7 : Int) ∧
    ([(0 : Int), 0, 0], (0 : Int)).1.length = (numBuckets 20 7).toNat ∧
    ((20 < hailstone_len 6 20 →
      tallyOne 20 7 ([(0 : Int), 0, 0], (0 : Int)) 6 = some ([0, 0, 0], 0 + 1)) ∧
     (hailstone_len 6 20 ≤ 20 →
      tallyOne 20 7 ([(0 : Int), 0, 0], (0 : Int)) 6 =
        some (([(0 : Int), 0, 0]).set ((hailstone_len 6 20 - 1).fdiv 7).toNat
          (([(0 : Int), 0, 0]).getD ((hailstone_len 6 20 - 1).fdiv 7).toNat 0 + 1),
          0)) ∧
     (∀ st', tallyOne 20 7 ([(0 : Int), 0, 0], (0 : Int)) 6 = some st' →
       ∀ j : Nat, j ≠ ((hailstone_len 6 20 - 1).fdiv 7).toNat →
         st'.1.getD j 0 = ([(0 : Int), 0, 0]).getD j 0)) :=
  ⟨by norm_num, by norm_num, by decide,
    tally_step_effect 20 7 6 ([(0 : Int), 0, 0], (0 : Int))
      (by norm_num) (by norm_num) (by decide)⟩

/-! ### Claim C3: the counters partition the range -/

/-- Incrementing one in-bounds element raises the list sum by one. -/
theorem sum_set_incr :
    ∀ (xs : List Int) (j : Nat), j < xs.length →
      (xs.set j (xs.getD j 0 + 1)).sum = xs.sum + 1 := by
  intro xs
  induction xs with
  | nil => intro j h; simp at h
  | cons x t ih =>
    intro j h
    cases j with
    | zero =>
      simp only [List.getD_cons_zero, List.set_cons_zero, List.sum_cons]
      ring
    | succ k =>
      simp only [List.getD_cons_succ, List.set_cons_succ, List.sum_cons]
      rw [ih k (by simpa using h)]
      ring

/-- Each `tallyOne` call succeeds on a bucket list of the allocated size,
keeps its length, and raises (sum of buckets) + overflow by exactly one. -/
theorem tallyOne_total (m b : Int) (_hm : 0 < m) (hb : 0 < b)
    (st : List Int × Int) (start : Int)
    (hlen : st.1.length = (numBuckets m b).toNat) :
    ∃ st', tallyOne m b st start = some st' ∧
      st'.1.length = st.1.length ∧
      st'.1.sum + st'.2 = st.1.sum + st.2 + 1 := by
  have hone : 1 ≤ hailstone_len start m := one_le_hailstone_len start m
  by_cases h : m < hailstone_len start m
  · refine ⟨(st.1, st.2 + 1), ?_, rfl, by push_cast; ring⟩
    simp only [tallyOne]
    rw [if_pos h]
  · have hle : hailstone_len start m ≤ m := by omega
    have hi := bucketIdx_bounds m b (hailstone_len start m) hb hone hle
    have hN : ((numBuckets m b).toNat : Int) = numBuckets m b :=
      Int.toNat_of_nonneg (by omega)
    have hidx : ((hailstone_len start m - 1).fdiv b).toNat < st.1.length := by
      omega
    refine ⟨(st.1.set ((hailstone_len start m - 1).fdiv b).toNat
        (st.1.getD ((hailstone_len start m - 1).fdiv b).toNat 0 + 1), st.2),
        ?_, by simp, ?_⟩
    · simp only [tallyOne]
      rw [if_neg (by omega), pyIncr_some hi.1 (by rw [hlen, hN]; exact hi.2)]
      rfl
    · simp only
      rw [sum_set_incr st.1 _ hidx]
      ring

/-- Folding `tallyOne` over any list of starts succeeds and raises
(sum of buckets) + overflow by the number of starts. -/
theorem foldlM_tally (m b : Int) (hm : 0 < m) (hb : 0 < b) :
    ∀ (starts : List Int) (st : List Int × Int),
      st.1.length = (numBuckets m b).toNat →
      ∃ st', starts.foldlM (tallyOne m b) st = some st' ∧
        st'.1.length = st.1.length ∧
        st'.1.sum + st'.2 = st.1.sum + st.2 + starts.length := by
  intro starts
  induction starts with
  | nil =>
    intro st hlen
    refine ⟨st, ?_, rfl, by simp⟩
    simp [List.foldlM]
  | cons s rest ih =>
    intro st hlen
    obtain ⟨st1, h1, hl1, hs1⟩ := tallyOne_total m b hm hb st s hlen
    obtain ⟨st2, h2, hl2, hs2⟩ := ih st1 (by rw [hl1, hlen])
    refine ⟨st2, ?_, by rw [hl2, hl1], ?_⟩
    · rw [List.foldlM_cons, h1]
      exact h2
    · rw [hs2, hs1]
      simp only [List.length_cons]
      push_cast
      ring

/-- C3: for `lower ≤ upper` and positive `maxlength` and `bucketsize`,
the counting pass succeeds and the sum of all bucket counters plus the
overflow counter equals `upper - lower + 1`. -/
theorem countPass_partition (lower upper maxlength bucketsize : Int)
    (hlu : lower ≤ upper) (hm : 0 < maxlength) (hb : 0 < bucketsize) :
    ∃ bs ov, countPass lower upper maxlength bucketsize = some (bs, ov) ∧
      bs.sum + ov = upper - lower + 1 := by
  obtain ⟨st', h1, _, hs⟩ := foldlM_tally maxlength bucketsize hm hb
    (rangeList lower upper)
    (List.replicate (numBuckets maxlength bucketsize).toNat 0, 0)
    (by simp)
  refine ⟨st'.1, st'.2, h1, ?_⟩
  have hlen : (rangeList lower upper).length = (upper + 1 - lower).toNat := by
    rw [rangeList, List.length_map, List.length_range]
  have hc : (((upper + 1 - lower).toNat : Nat) : Int) = upper + 1 - lower :=
    Int.toNat_of_nonneg (by omega)
  simp only [List.sum_replicate, smul_zero] at hs
  rw [hlen] at hs
  omega

/-- Witness for C3 at `lower = 1`, `upper = 4`, `maxlength = 10`,
`bucketsize = 3`. -/
theorem countPass_partition_witness :
    (1 : Int) ≤ 4 ∧ 0 < (10 : Int) ∧ 0 < (3 : Int) ∧
    ∃ bs ov, countPass 1 4 10 3 = some (bs, ov) ∧
      bs.sum + ov = 4 - 1 + 1 :=
  ⟨by norm_num, by norm_num, by norm_num,
    countPass_partition 1 4 10 3 (by norm_num) (by norm_num) (by norm_num)⟩

/-! ### Claim C9: an empty range is not an error -/

/-- C9: when `lower > upper` (with positive `maxlength` and `bucketsize`),
the counting pass processes no start values and does not fail: it returns
the all-zero histogram (every bucket counter 0 and overflow 0). -/
theorem countPass_empty_range (lower upper maxlength bucketsize : Int)
    (h : upper < lower) (_hm : 0 < maxlength) (_hb : 0 < bucketsize) :
    countPass lower upper maxlength bucketsize =
      some (List.replicate (numBuckets maxlength bucketsize).toNat 0, 0) ∧
    ∀ x ∈ List.replicate (numBuckets maxlength bucketsize).toNat (0 : Int),
      x = 0 := by
  constructor
  · have hr : rangeList lower upper = [] := by
      have : (upper + 1 - lower).toNat = 0 := by omega
      simp [rangeList, this]
    rw [countPass, hr]
    rfl
  · intro x hx
    exact List.eq_of_mem_replicate hx

/-- Witness for C9 at `lower = 5`, `upper = 3`, `maxlength = 4`,
`bucketsize = 2`. -/
theorem countPass_empty_range_witness :
    (3 : Int) < 5 ∧ 0 < (4 : Int) ∧ 0 < (2 : Int) ∧
    (countPass 5 3 4 2 = some (List.replicate (numBuckets 4 2).toNat 0, 0) ∧
     ∀ x ∈ List.replicate (numBuckets 4 2).toNat (0 : Int), x = 0) :=
  ⟨by norm_num, by norm_num, by norm_num,
    countPass_empty_range 5 3 4 2 (by norm_num) (by norm_num) (by norm_num)⟩
